import Mathlib

/-!
Verification of the hand-simulation engine of the handWeb deck-building
application (src/src/App.tsx, second `HandSimulation` component: the
condition matcher `handMatches` at lines 932-1004 and the simulation
driver `runSimulation` at lines 1166-1215).

Modelling choices:
* JavaScript numbers appearing as counts are modelled as `Int` (they are
  integers throughout the engine); list lengths and trial indices as `Nat`.
* The `cardCache` record is modelled as a lookup `String → Option CardData`;
  a `none` result corresponds to a card identifier absent from the cache.
* A group member (`FilterCard | { id, name }` in the source) is modelled as
  a single structure `GroupItem`; the field `filterByAttributeKey` records
  whether the JavaScript object carries the `filterByAttribute` property at
  all (the source discriminates members with `'filterByAttribute' in
  groupItem`, which is true even when the stored value is `undefined`).
  Optional string fields use `Option String` (`none` = property absent or
  `undefined`); JavaScript truthiness of such a field is `strTruthy`
  (both `undefined` and the empty string are falsy).
* The random source is an oracle: the shuffle receives a function
  `r : Nat → Nat` and uses `r j % (j + 1)` where the source computes
  `Math.floor(Math.random() * (j + 1))`; every theorem is proved for all
  oracles, hence for every realisable sequence of random draws.
-/

/-- Card metadata as stored in the card cache (fields the matcher reads). -/
structure CardData where
  id : String
  name : String
  /-- The card's attribute field (named `attribute` in the source; that word
  is a Lean keyword). -/
  attr : Option String
  level : Option Int
  cardType : Option String
  race : Option String
  atk : Option Int
  archetype : Option String
deriving Repr, DecidableEq

/-- Numeric range filter with optional bounds (`filterByLevel`, `filterByATK`). -/
structure FilterRange where
  min : Option Int
  max : Option Int
deriving Repr, DecidableEq

/-- One member of a condition group: either a literal card or a filter card.
`filterByAttributeKey` records presence of the `filterByAttribute` property
on the JavaScript object (the branch test `'filterByAttribute' in groupItem`). -/
structure GroupItem where
  id : String
  name : String
  filterByAttributeKey : Bool
  filterByAttribute : Option String
  filterByType : Option String
  filterByRace : Option String
  filterByLevel : Option FilterRange
  filterByATK : Option FilterRange
  filterByArchetype : Option String
deriving Repr, DecidableEq

/-- The four comparison operators of a condition. -/
inductive Op where
  | eq
  | le
  | ge
  | ne
deriving Repr, DecidableEq, BEq

/-- A condition: a group of members, an operator and a target count. -/
structure HandCardCondition where
  group : List GroupItem
  op : Op
  count : Int
deriving Repr, DecidableEq

/-- JavaScript truthiness of an optional string: `undefined` and `""` are falsy. -/
def strTruthy : Option String → Bool
  | none => false
  | some s => !(s == "")

/-- Failure of a numeric range check, as in the source:
`v < min` or `v > max`, each bound checked only when present. -/
def rangeFails (r : FilterRange) (v : Int) : Bool :=
  (match r.min with
   | some m => decide (v < m)
   | none => false) ||
  (match r.max with
   | some m => decide (m < v)
   | none => false)

/-- The filter-card predicate of `handMatches` (App.tsx lines 947-976):
a hand card `cid` passes the filter `item` when its metadata is present in
the cache and survives every active predicate; a card absent from the
cache never passes. -/
def passesFilter (cardCache : String → Option CardData) (item : GroupItem)
    (cid : String) : Bool :=
  match cardCache cid with
  | none => false
  | some card =>
    !(strTruthy item.filterByAttribute && !(card.attr == item.filterByAttribute)) &&
    !(strTruthy item.filterByType && !(card.cardType == item.filterByType)) &&
    !(strTruthy item.filterByRace && !(card.race == item.filterByRace)) &&
    !(match item.filterByLevel with
      | some r => rangeFails r (card.level.getD 0)
      | none => false) &&
    !(match item.filterByATK with
      | some r => rangeFails r (card.atk.getD 0)
      | none => false) &&
    !(strTruthy item.filterByArchetype && !(card.archetype == item.filterByArchetype))

/-- Initial card counts of a hand (App.tsx lines 933-934):
`counts[id] = (counts[id] || 0) + 1` for each card of the hand. -/
def buildCounts (hand : List String) : String → Int :=
  hand.foldl (fun m cid => fun x => if x == cid then m x + 1 else m x) (fun _ => 0)

/-- Decrement of a remaining count guarded by positivity (App.tsx 984-986):
`if (remainingCounts[id] > 0) remainingCounts[id]--`. -/
def decrementIfPos (r : String → Int) (cid : String) : String → Int :=
  if r cid > 0 then fun x => if x == cid then r x - 1 else r x else r

/-- Consumption pass of the filter-card branch (App.tsx 983-987): every card
of the filtered hand whose remaining count is positive is decremented. -/
def consumeFiltered (filteredHand : List String) (r : String → Int) : String → Int :=
  filteredHand.foldl decrementIfPos r

/-- Evaluation of one group member (App.tsx 944-995). The state is the pair
(groupCount, remainingCounts). A member carrying the `filterByAttribute`
property is a filter card: the whole hand is filtered by `passesFilter`,
the full filtered length is added to the group count and matching cards
with positive remaining count are consumed. Any other member is a literal
card: it contributes 1 and is consumed only when its remaining count is
positive. -/
def evalGroupItem (hand : List String) (cardCache : String → Option CardData)
    (st : Int × (String → Int)) (item : GroupItem) : Int × (String → Int) :=
  if item.filterByAttributeKey then
    let filteredHand := hand.filter (passesFilter cardCache item)
    (st.1 + (filteredHand.length : Int), consumeFiltered filteredHand st.2)
  else
    if st.2 item.id > 0 then
      (st.1 + 1, fun x => if x == item.id then st.2 x - 1 else st.2 x)
    else st

/-- Evaluation of a whole group from remaining counts `r`: group count and
updated remaining counts (the per-condition loop body of App.tsx 944-995). -/
def evalGroup (hand : List String) (cardCache : String → Option CardData)
    (group : List GroupItem) (r : String → Int) : Int × (String → Int) :=
  group.foldl (evalGroupItem hand cardCache) (0, r)

/-- The operator check of a condition (App.tsx 998-1001), written as the
source's cascade of early returns: the condition passes unless one of the
four guarded comparisons fails. For `!=` the stored count is not consulted. -/
def condPasses (op : Op) (count groupCount : Int) : Bool :=
  if op == Op.eq && !(groupCount == count) then false
  else if op == Op.le && decide (count < groupCount) then false
  else if op == Op.ge && decide (groupCount < count) then false
  else if op == Op.ne && !(groupCount == 0) then false
  else true

/-- The condition loop of `handMatches` (App.tsx 939-1003), threading the
remaining counts through the conditions and returning `false` at the first
failing condition. -/
def handMatchesGo (hand : List String) (cardCache : String → Option CardData) :
    List HandCardCondition → (String → Int) → Bool
  | [], _ => true
  | cond :: rest, r =>
    let st := evalGroup hand cardCache cond.group r
    if condPasses cond.op cond.count st.1 then handMatchesGo hand cardCache rest st.2
    else false

/-- The condition matcher `handMatches` (App.tsx 932-1004). -/
def handMatches (hand : List String) (conditions : List HandCardCondition)
    (cardCache : String → Option CardData) : Bool :=
  handMatchesGo hand cardCache conditions (buildCounts hand)

/-- Remaining-count state after evaluating a list of conditions (the state
of `handMatches` after any prefix of the condition loop, ignoring the
early return; states actually reached by `handMatchesGo` are a subset). -/
def matchState (hand : List String) (cardCache : String → Option CardData) :
    List HandCardCondition → (String → Int) → String → Int
  | [], r => r
  | cond :: rest, r => matchState hand cardCache rest (evalGroup hand cardCache cond.group r).2

/-- Swap of two positions of a list (the destructuring assignment
`[shuffled[j], shuffled[k]] = [shuffled[k], shuffled[j]]`, App.tsx 1185). -/
def listSwap (l : List String) (i j : Nat) : List String :=
  match l.get? i, l.get? j with
  | some x, some y => (l.set i y).set j x
  | _, _ => l

/-- The Fisher-Yates loop of `runSimulation` (App.tsx 1183-1186): for `j`
from `l.length - 1` down to `1`, swap position `j` with a random position
`r j % (j + 1)` in `0..j`. The first argument of `fyAux` is the current `j`. -/
def fyAux (r : Nat → Nat) : Nat → List String → List String
  | 0, a => a
  | j + 1, a => fyAux r j (listSwap a (j + 1) (r (j + 1) % (j + 2)))

/-- Fisher-Yates shuffle of a fresh copy of the deck (App.tsx 1182-1186). -/
def fyShuffle (deck : List String) (r : Nat → Nat) : List String :=
  fyAux r (deck.length - 1) deck

/-- One sampled hand: shuffle, then take the first `handSize` cards
(App.tsx 1182-1187, `shuffled.slice(0, handSize)`). -/
def drawHand (deckMain : List String) (handSize : Nat) (r : Nat → Nat) : List String :=
  (fyShuffle deckMain r).take handSize

/-- Inclusive-mode per-trial update (App.tsx 1205-1210): every matching
target's counter is incremented. -/
def inclusiveUpdate (hand : List String) (cardCache : String → Option CardData)
    (targets : List (List HandCardCondition)) (counts : List Nat) : List Nat :=
  List.zipWith (fun conds c => if handMatches hand conds cardCache then c + 1 else c)
    targets counts

/-- Exclusive-mode per-trial update (App.tsx 1195-1204): targets are scanned
in listed order and only the first matching target's counter is
incremented (the loop breaks at the first match). -/
def exclusiveUpdate (hand : List String) (cardCache : String → Option CardData) :
    List (List HandCardCondition) → List Nat → List Nat
  | [], counts => counts
  | _ :: _, [] => []
  | t :: ts, c :: cs =>
    if handMatches hand t cardCache then (c + 1) :: cs
    else c :: exclusiveUpdate hand cardCache ts cs

/-- The per-trial counter update selected by the exclusive flag. -/
def trialUpdate (exclusiveMode : Bool) (hand : List String)
    (cardCache : String → Option CardData) (targets : List (List HandCardCondition))
    (counts : List Nat) : List Nat :=
  if exclusiveMode then exclusiveUpdate hand cardCache targets counts
  else inclusiveUpdate hand cardCache targets counts

/-- The trial loop of `runSimulation` (App.tsx 1180-1211): `i` is the index
of the current trial (used to address the random oracle), the second `Nat`
is the number of trials still to run. -/
def simTrials (deckMain : List String) (handSize : Nat)
    (targets : List (List HandCardCondition)) (cardCache : String → Option CardData)
    (exclusiveMode : Bool) (rand : Nat → Nat → Nat) :
    Nat → Nat → List Nat → List Nat
  | _, 0, counts => counts
  | i, fuel + 1, counts =>
    simTrials deckMain handSize targets cardCache exclusiveMode rand (i + 1) fuel
      (trialUpdate exclusiveMode (drawHand deckMain handSize (rand i)) cardCache
        targets counts)

/-- The sequence of hands drawn by the trial loop. -/
def trialHands (deckMain : List String) (handSize : Nat) (rand : Nat → Nat → Nat) :
    Nat → Nat → List (List String)
  | _, 0 => []
  | i, fuel + 1 =>
    drawHand deckMain handSize (rand i) :: trialHands deckMain handSize rand (i + 1) fuel

/-- The simulation driver `runSimulation` (App.tsx 1166-1215). Precondition
checks come first, in source order: a deck smaller than the hand size and a
missing or empty target hand abort with the source's error message before
any trial. Otherwise the trial loop runs `numSim` times (zero times when
`numSim < 1`, as the source's `for` loop) starting from all-zero counters.
The trial count is an `Int` because the source places no lower bound on it. -/
def runSimulation (deckMain : List String) (handSize : Nat)
    (inputTargets : List (List HandCardCondition)) (numSim : Int)
    (exclusiveMode : Bool) (cardCache : String → Option CardData)
    (rand : Nat → Nat → Nat) : Except String (List Nat) :=
  if deckMain.length < handSize then
    Except.error "Deck does not have enough cards for the chosen hand size."
  else if inputTargets.length == 0 || inputTargets.any (fun t => t.length == 0) then
    Except.error "Please enter at least one valid target hand."
  else
    Except.ok (simTrials deckMain handSize inputTargets cardCache exclusiveMode rand
      0 numSim.toNat (List.replicate inputTargets.length 0))

/-- The stored results after a run: `setResults` is reached only on the
success path, so an error leaves the previously stored results in place. -/
def resultsAfter (prev : List Nat) (outcome : Except String (List Nat)) : List Nat :=
  match outcome with
  | Except.error _ => prev
  | Except.ok counts => counts

/-- Exclusive-mode hit counts over a fixed sequence of sampled hands. -/
def runExclusive (targets : List (List HandCardCondition))
    (cardCache : String → Option CardData) (hands : List (List String)) : List Nat :=
  hands.foldl (fun counts hand => exclusiveUpdate hand cardCache targets counts)
    (List.replicate targets.length 0)

/-- Inclusive-mode hit counts over a fixed sequence of sampled hands. -/
def runInclusive (targets : List (List HandCardCondition))
    (cardCache : String → Option CardData) (hands : List (List String)) : List Nat :=
  hands.foldl (fun counts hand => inclusiveUpdate hand cardCache targets counts)
    (List.replicate targets.length 0)

/-! Helper lemmas. -/

/-- Folding the count-building step over a hand adds the hand's occurrence
count of each identifier to the accumulator. -/
theorem buildCounts_foldl (hand : List String) (m : String → Int) (x : String) :
    hand.foldl (fun m cid => fun y => if y == cid then m y + 1 else m y) m x
      = m x + (hand.count x : Int) := by
  induction hand generalizing m with
  | nil => simp
  | cons c t ih =>
    rw [List.foldl_cons, ih, List.count_cons]
    by_cases hxc : x = c
    · subst hxc; simp; omega
    · have h1 : (x == c) = false := by simp [hxc]
      have h2 : (c == x) = false := by
        simp only [beq_eq_false_iff_ne, ne_eq]
        exact fun h => hxc h.symm
      simp [h1, h2]

/-- The initial remaining counts are exactly the hand's occurrence counts. -/
theorem buildCounts_apply (hand : List String) (x : String) :
    buildCounts hand x = (hand.count x : Int) := by
  rw [buildCounts, buildCounts_foldl]; simp

/-- Setting one position of a list exchanges the old element for the new one
in every occurrence count (stated additively to stay in `Nat`). -/
theorem count_set_add (l : List String) (i : Nat) (b x : String) (h : i < l.length) :
    (l.set i b).count x + (if l[i] == x then 1 else 0)
      = l.count x + (if b == x then 1 else 0) := by
  induction l generalizing i with
  | nil => simp at h
  | cons c t ih =>
    cases i with
    | zero => simp [List.count_cons]; omega
    | succ i =>
      have hi : i < t.length := by simpa using h
      simp only [List.set_cons_succ, List.count_cons, List.getElem_cons_succ]
      have := ih i hi
      omega

/-- Swapping two positions never changes an occurrence count. -/
theorem listSwap_count (l : List String) (i j : Nat) (x : String) :
    (listSwap l i j).count x = l.count x := by
  unfold listSwap
  split
  · next a b h1 h2 =>
    have hi : i < l.length := by
      by_contra h
      rw [List.get?_eq_none.mpr (Nat.le_of_not_lt h)] at h1
      cases h1
    have hj : j < l.length := by
      by_contra h
      rw [List.get?_eq_none.mpr (Nat.le_of_not_lt h)] at h2
      cases h2
    have hga : l[i] = a := by
      have := List.get?_eq_getElem? l i
      rw [this, List.getElem?_eq_getElem hi] at h1
      exact (Option.some.injEq _ _).mp h1
    have hgb : l[j] = b := by
      have := List.get?_eq_getElem? l j
      rw [this, List.getElem?_eq_getElem hj] at h2
      exact (Option.some.injEq _ _).mp h2
    have hj' : j < (l.set i b).length := by simpa using hj
    have hsetj : (l.set i b)[j] = b := by
      by_cases hij : i = j
      · subst hij; simp
      · rw [List.getElem_set_ne hij]; exact hgb
    have e1 := count_set_add (l.set i b) j a x hj'
    have e2 := count_set_add l i b x hi
    rw [hsetj] at e1
    rw [hga] at e2
    omega
  · rfl

/-- Swapping preserves the length. -/
theorem listSwap_length (l : List String) (i j : Nat) :
    (listSwap l i j).length = l.length := by
  unfold listSwap
  split
  · simp
  · rfl

/-- The Fisher-Yates loop never changes an occurrence count. -/
theorem fyAux_count (r : Nat → Nat) (j : Nat) (a : List String) (x : String) :
    (fyAux r j a).count x = a.count x := by
  induction j generalizing a with
  | zero => rfl
  | succ j ih => rw [fyAux, ih, listSwap_count]

/-- The Fisher-Yates loop preserves the length. -/
theorem fyAux_length (r : Nat → Nat) (j : Nat) (a : List String) :
    (fyAux r j a).length = a.length := by
  induction j generalizing a with
  | zero => rfl
  | succ j ih => rw [fyAux, ih, listSwap_length]

/-- The shuffled deck has the same occurrence counts as the deck. -/
theorem fyShuffle_count (deck : List String) (r : Nat → Nat) (x : String) :
    (fyShuffle deck r).count x = deck.count x := fyAux_count r _ deck x

/-- The shuffled deck has the same length as the deck. -/
theorem fyShuffle_length (deck : List String) (r : Nat → Nat) :
    (fyShuffle deck r).length = deck.length := fyAux_length r _ deck

/-! Test fixtures: a literal group member, a filter group member and a
one-card metadata cache, used by concrete witnesses and counterexamples. -/

/-- A literal group member (a plain `{ id, name }` object: no
`filterByAttribute` property). -/
def litA : GroupItem :=
  { id := "A", name := "Card A", filterByAttributeKey := false,
    filterByAttribute := none, filterByType := none, filterByRace := none,
    filterByLevel := none, filterByATK := none, filterByArchetype := none }

/-- A filter card selecting DARK-attribute cards (built as
`addFilterCardToGroup` builds them: the `filterByAttribute` property is
present, here with a concrete value). -/
def darkFilter : GroupItem :=
  { id := "filter_1", name := "FILTER_1", filterByAttributeKey := true,
    filterByAttribute := some "DARK", filterByType := none, filterByRace := none,
    filterByLevel := none, filterByATK := none, filterByArchetype := none }

/-- A cache holding metadata only for card "A", a DARK card. -/
def darkCache : String → Option CardData := fun s =>
  if s == "A" then
    some { id := "A", name := "Card A", attr := some "DARK", level := none,
           cardType := none, race := none, atk := none, archetype := none }
  else none

/-- C2: the four operators are applied to the group count as follows: `=`
passes iff the group count equals the stored count, `<=` iff it is at most
the stored count, `>=` iff it is at least the stored count, and `!=`
passes iff the group count is zero, for every value of the stored count;
consequently the stored count of a `!=` condition never influences the
matcher. -/
theorem operatorSemantics (count groupCount : Int) :
    (condPasses Op.ne count groupCount = true ↔ groupCount = 0) ∧
    (condPasses Op.eq count groupCount = true ↔ groupCount = count) ∧
    (condPasses Op.le count groupCount = true ↔ groupCount ≤ count) ∧
    (condPasses Op.ge count groupCount = true ↔ count ≤ groupCount) ∧
    (∀ (hand : List String) (cardCache : String → Option CardData)
       (g : List GroupItem) (rest : List HandCardCondition),
       handMatches hand (⟨g, Op.ne, count⟩ :: rest) cardCache
         = handMatches hand (⟨g, Op.ne, 0⟩ :: rest) cardCache) := by
  have hne : condPasses Op.ne count groupCount
      = if !(groupCount == 0) then false else true := rfl
  have heq : condPasses Op.eq count groupCount
      = if !(groupCount == count) then false else true := rfl
  have hle : condPasses Op.le count groupCount
      = if decide (count < groupCount) then false else true := rfl
  have hge : condPasses Op.ge count groupCount
      = if decide (groupCount < count) then false else true := rfl
  refine ⟨?_, ?_, ?_, ?_, ?_⟩
  · rw [hne]
    by_cases h : groupCount = 0 <;> simp [h]
  · rw [heq]
    by_cases h : groupCount = count <;> simp [h]
  · rw [hle]
    by_cases h : count < groupCount <;> (simp [h]; try omega)
  · rw [hge]
    by_cases h : groupCount < count <;> (simp [h]; try omega)
  · intro hand cardCache g rest
    rfl

/-- A target hand made of the single condition "at least one of `item`"
matches exactly when the member's literal identifier occurs in the hand,
whenever the member lacks the `filterByAttribute` property. -/
theorem handMatches_single_literal (hand : List String)
    (cardCache : String → Option CardData) (item : GroupItem)
    (hkey : item.filterByAttributeKey = false) :
    handMatches hand [⟨[item], Op.ge, 1⟩] cardCache = decide (item.id ∈ hand) := by
  have hcp1 : condPasses Op.ge 1 (0 + 1) = true := by decide
  have hcp0 : condPasses Op.ge 1 0 = false := by decide
  unfold handMatches handMatchesGo evalGroup
  simp only [List.foldl_cons, List.foldl_nil, evalGroupItem, hkey, Bool.false_eq_true,
    if_false]
  by_cases hmem : item.id ∈ hand
  · have hpos : buildCounts hand item.id > 0 := by
      rw [buildCounts_apply]
      exact_mod_cast List.count_pos_iff.mpr hmem
    simp only [if_pos hpos, hcp1, if_true]
    rw [decide_eq_true hmem]
    rfl
  · have hz : ¬ buildCounts hand item.id > 0 := by
      rw [buildCounts_apply, List.count_eq_zero_of_not_mem hmem]
      omega
    simp only [if_neg hz, hcp0, Bool.false_eq_true, if_false]
    rw [decide_eq_false hmem]

/-- A target hand made of the single condition "at least one of `item`"
matches exactly when some hand card passes the member's filter, whenever
the member carries the `filterByAttribute` property. -/
theorem handMatches_single_filter (hand : List String)
    (cardCache : String → Option CardData) (item : GroupItem)
    (hkey : item.filterByAttributeKey = true) :
    handMatches hand [⟨[item], Op.ge, 1⟩] cardCache
      = hand.any (passesFilter cardCache item) := by
  unfold handMatches handMatchesGo evalGroup
  simp only [List.foldl_cons, List.foldl_nil, evalGroupItem, hkey, if_true]
  by_cases hany : hand.any (passesFilter cardCache item) = true
  · obtain ⟨a, ha, hpa⟩ := List.any_eq_true.mp hany
    have hpos : 0 < (hand.filter (passesFilter cardCache item)).length := by
      rw [← List.countP_eq_length_filter]
      exact List.countP_pos_iff.mpr ⟨a, ha, hpa⟩
    have hcp : condPasses Op.ge 1 (0 + ((hand.filter (passesFilter cardCache item)).length : Int))
        = true := by
      have hgen : ∀ n : Nat, 0 < n → condPasses Op.ge 1 (0 + (n : Int)) = true := by
        intro n hn
        have : condPasses Op.ge 1 (0 + (n : Int))
            = if decide ((0 + (n : Int)) < 1) then false else true := rfl
        rw [this, if_neg]
        simp only [decide_eq_true_eq]
        omega
      exact hgen _ hpos
    simp only [hcp, if_true, hany]
    rfl
  · have hz : (hand.filter (passesFilter cardCache item)).length = 0 := by
      rw [← List.countP_eq_length_filter, List.countP_eq_zero]
      intro a ha hpa
      exact hany (List.any_eq_true.mpr ⟨a, ha, hpa⟩)
    rw [hz]
    have hcp : condPasses Op.ge 1 (0 + ((0 : Nat) : Int)) = false := by decide
    simp only [hcp, Bool.false_eq_true, if_false]
    simp only [Bool.not_eq_true] at hany
    rw [hany]

/-- C1: evaluation of the code at the failing input. The hand holds one
card "A" (a DARK card). Condition 1 ("at least one literal A") consumes
the only copy. Condition 2 is a DARK filter card: the claim requires the
already-consumed copy of "A" to contribute nothing, making the target
fail, yet `handMatches` returns `true` because the filter branch adds the
full filtered-hand length to the group count before consulting the
remaining counts. The second conjunct shows the contrast: routing the same
double use through a literal member is correctly prevented. -/
theorem filterBranchCountsConsumedCard :
    handMatches ["A"] [⟨[litA], Op.ge, 1⟩, ⟨[darkFilter], Op.ge, 1⟩] darkCache = true ∧
    handMatches ["A"] [⟨[litA], Op.ge, 1⟩, ⟨[litA], Op.ge, 1⟩] darkCache = false := by
  exact ⟨rfl, rfl⟩

/-- C8: a card identifier absent from the metadata lookup passes no filter
card whatsoever (it contributes 0 to every filter-based count), while a
literal group member with that identifier still matches and consumes it;
the matcher is a total function, so the missing entry never aborts a run. -/
theorem missingMetadataSoft (cardCache : String → Option CardData) (cid : String)
    (hnone : cardCache cid = none) :
    (∀ item : GroupItem, passesFilter cardCache item cid = false) ∧
    (∀ (hand : List String) (item : GroupItem),
       item.filterByAttributeKey = false → item.id = cid → cid ∈ hand →
       handMatches hand [⟨[item], Op.ge, 1⟩] cardCache = true) := by
  constructor
  · intro item
    unfold passesFilter
    rw [hnone]
  · intro hand item hkey hid hmem
    rw [handMatches_single_literal hand cardCache item hkey, hid]
    exact decide_eq_true hmem

/-- Witness for C8 at a concrete input: card "B" is absent from
`darkCache`; it passes no filter there, yet the literal member with
identifier "B" matches the hand `["B"]`. -/
theorem missingMetadataSoft_witness :
    darkCache "B" = none ∧
    passesFilter darkCache darkFilter "B" = false ∧
    handMatches ["B"]
      [⟨[⟨"B", "Card B", false, none, none, none, none, none, none⟩], Op.ge, 1⟩]
      darkCache = true := by
  refine ⟨rfl, ?_, ?_⟩
  · exact (missingMetadataSoft darkCache "B" rfl).1 darkFilter
  · exact (missingMetadataSoft darkCache "B" rfl).2 ["B"]
      ⟨"B", "Card B", false, none, none, none, none, none, none⟩ rfl rfl
      (by simp)

/-- C9: a group member is treated as a filter card exactly when the
`filterByAttribute` property is present on it, independently of the
property's value and of any other filter field. Without the property the
member is matched as a literal identifier (the single-condition target
"at least one of `item`" reduces to membership of `item.id` in the hand,
whatever `filterByType` or the other filter fields hold); with the
property, even valueless, the same target reduces to a scan of the hand
through the member's metadata predicates. -/
theorem filterClassificationByKey (item : GroupItem) (hand : List String)
    (cardCache : String → Option CardData) :
    (item.filterByAttributeKey = false →
       handMatches hand [⟨[item], Op.ge, 1⟩] cardCache = decide (item.id ∈ hand)) ∧
    (item.filterByAttributeKey = true →
       handMatches hand [⟨[item], Op.ge, 1⟩] cardCache
         = hand.any (passesFilter cardCache item)) := by
  constructor
  · intro hkey
    exact handMatches_single_literal hand cardCache item hkey
  · intro hkey
    exact handMatches_single_filter hand cardCache item hkey

/-- Witness for C9 at concrete inputs: a member carrying only
`filterByType` but no `filterByAttribute` property is matched by its
identifier (here it matches hand `["A"]` although "A" has no type), and a
member with the `filterByAttribute` property present but valueless is
evaluated as a filter. -/
theorem filterClassificationByKey_witness :
    handMatches ["A"]
      [⟨[⟨"A", "Card A", false, none, some "Spell Card", none, none, none, none⟩],
        Op.ge, 1⟩] darkCache
      = decide ("A" ∈ (["A"] : List String)) ∧
    handMatches ["A"]
      [⟨[⟨"filter_2", "FILTER_2", true, none, some "Spell Card", none, none, none,
          none⟩], Op.ge, 1⟩] darkCache
      = (["A"] : List String).any
          (passesFilter darkCache
            ⟨"filter_2", "FILTER_2", true, none, some "Spell Card", none, none, none,
             none⟩) := by
  constructor
  · exact (filterClassificationByKey
      ⟨"A", "Card A", false, none, some "Spell Card", none, none, none, none⟩
      ["A"] darkCache).1 rfl
  · exact (filterClassificationByKey
      ⟨"filter_2", "FILTER_2", true, none, some "Spell Card", none, none, none, none⟩
      ["A"] darkCache).2 rfl

/-- A guarded decrement never increases any entry. -/
theorem decrementIfPos_le (r : String → Int) (cid x : String) :
    decrementIfPos r cid x ≤ r x := by
  unfold decrementIfPos
  by_cases h : r cid > 0
  · rw [if_pos h]
    by_cases hx : (x == cid) = true
    · simp only [hx, if_true]
      omega
    · simp only [hx, Bool.false_eq_true, if_false]
      simp at hx
      simp [hx]
  · rw [if_neg h]

/-- A guarded decrement keeps a nonnegative entry nonnegative. -/
theorem decrementIfPos_nonneg (r : String → Int) (cid x : String)
    (h0 : 0 ≤ r x) : 0 ≤ decrementIfPos r cid x := by
  unfold decrementIfPos
  by_cases h : r cid > 0
  · rw [if_pos h]
    by_cases hx : (x == cid) = true
    · have hxe : x = cid := by simpa using hx
      simp only [hx, if_true]
      subst hxe
      omega
    · simp only [hx, Bool.false_eq_true, if_false]
      simp at hx
      simp [hx, h0]
  · rw [if_neg h]
    exact h0

/-- The consumption pass of the filter branch never increases any entry. -/
theorem consumeFiltered_le (fh : List String) (r : String → Int) (x : String) :
    consumeFiltered fh r x ≤ r x := by
  induction fh generalizing r with
  | nil => exact le_refl _
  | cons c t ih =>
    calc consumeFiltered (c :: t) r x
        = consumeFiltered t (decrementIfPos r c) x := rfl
      _ ≤ decrementIfPos r c x := ih _
      _ ≤ r x := decrementIfPos_le r c x

/-- The consumption pass keeps a nonnegative entry nonnegative. -/
theorem consumeFiltered_nonneg (fh : List String) (r : String → Int) (x : String)
    (h0 : 0 ≤ r x) : 0 ≤ consumeFiltered fh r x := by
  induction fh generalizing r with
  | nil => exact h0
  | cons c t ih => exact ih (decrementIfPos r c) (decrementIfPos_nonneg r c x h0)

/-- A single group-member step never increases any remaining count. -/
theorem evalGroupItem_snd_le (hand : List String)
    (cardCache : String → Option CardData) (st : Int × (String → Int))
    (item : GroupItem) (x : String) :
    (evalGroupItem hand cardCache st item).2 x ≤ st.2 x := by
  unfold evalGroupItem
  by_cases hkey : item.filterByAttributeKey = true
  · simp only [hkey, if_true]
    exact consumeFiltered_le _ _ _
  · simp only [hkey, Bool.false_eq_true, if_false]
    by_cases hpos : st.2 item.id > 0
    · rw [if_pos hpos]
      by_cases hx : (x == item.id) = true
      · simp only [hx, if_true]
        omega
      · simp only [hx, Bool.false_eq_true, if_false]
        simp at hx
        simp [hx]
    · rw [if_neg hpos]

/-- A single group-member step keeps a nonnegative remaining count
nonnegative. -/
theorem evalGroupItem_snd_nonneg (hand : List String)
    (cardCache : String → Option CardData) (st : Int × (String → Int))
    (item : GroupItem) (x : String) (h0 : 0 ≤ st.2 x) :
    0 ≤ (evalGroupItem hand cardCache st item).2 x := by
  unfold evalGroupItem
  by_cases hkey : item.filterByAttributeKey = true
  · simp only [hkey, if_true]
    exact consumeFiltered_nonneg _ _ _ h0
  · simp only [hkey, Bool.false_eq_true, if_false]
    by_cases hpos : st.2 item.id > 0
    · rw [if_pos hpos]
      by_cases hx : (x == item.id) = true
      · have hxe : x = item.id := by simpa using hx
        simp only [hx, if_true]
        subst hxe
        omega
      · simp only [hx, Bool.false_eq_true, if_false]
        simp at hx
        simp [hx, h0]
    · rw [if_neg hpos]
      exact h0

/-- The whole member loop of one condition never increases any remaining
count. -/
theorem foldl_evalGroupItem_snd_le (hand : List String)
    (cardCache : String → Option CardData) (group : List GroupItem)
    (x : String) :
    ∀ st : Int × (String → Int),
      (group.foldl (evalGroupItem hand cardCache) st).2 x ≤ st.2 x := by
  induction group with
  | nil => intro st; exact le_refl _
  | cons g gs ih =>
    intro st
    calc ((g :: gs).foldl (evalGroupItem hand cardCache) st).2 x
        = (gs.foldl (evalGroupItem hand cardCache)
            (evalGroupItem hand cardCache st g)).2 x := rfl
      _ ≤ (evalGroupItem hand cardCache st g).2 x := ih _
      _ ≤ st.2 x := evalGroupItem_snd_le hand cardCache st g x

/-- The whole member loop keeps a nonnegative remaining count nonnegative. -/
theorem foldl_evalGroupItem_snd_nonneg (hand : List String)
    (cardCache : String → Option CardData) (group : List GroupItem)
    (x : String) :
    ∀ st : Int × (String → Int), 0 ≤ st.2 x →
      0 ≤ (group.foldl (evalGroupItem hand cardCache) st).2 x := by
  induction group with
  | nil => intro st h0; exact h0
  | cons g gs ih =>
    intro st h0
    exact ih _ (evalGroupItem_snd_nonneg hand cardCache st g x h0)

/-- The state after any list of conditions never exceeds the starting
remaining counts. -/
theorem matchState_le (hand : List String) (cardCache : String → Option CardData)
    (conds : List HandCardCondition) (x : String) :
    ∀ r : String → Int, matchState hand cardCache conds r x ≤ r x := by
  induction conds with
  | nil => intro r; exact le_refl _
  | cons c cs ih =>
    intro r
    calc matchState hand cardCache (c :: cs) r x
        = matchState hand cardCache cs (evalGroup hand cardCache c.group r).2 x := rfl
      _ ≤ (evalGroup hand cardCache c.group r).2 x := ih _
      _ ≤ r x := foldl_evalGroupItem_snd_le hand cardCache c.group x (0, r)

/-- The state after any list of conditions stays nonnegative. -/
theorem matchState_nonneg (hand : List String)
    (cardCache : String → Option CardData) (conds : List HandCardCondition)
    (x : String) :
    ∀ r : String → Int, 0 ≤ r x → 0 ≤ matchState hand cardCache conds r x := by
  induction conds with
  | nil => intro r h0; exact h0
  | cons c cs ih =>
    intro r h0
    exact ih _ (foldl_evalGroupItem_snd_nonneg hand cardCache c.group x (0, r) h0)

/-- C10: throughout one evaluation of the matcher the remaining counts
stay within bounds. Each single member step (either branch) decrements an
entry only when it is strictly positive and never increments one, so every
entry stays at least 0; and after any prefix of the conditions every entry
is still at most its initial count in the hand. -/
theorem remainingCountsBounds (hand : List String)
    (cardCache : String → Option CardData) :
    (∀ (st : Int × (String → Int)) (item : GroupItem) (x : String),
       (evalGroupItem hand cardCache st item).2 x ≤ st.2 x ∧
       (0 ≤ st.2 x → 0 ≤ (evalGroupItem hand cardCache st item).2 x)) ∧
    (∀ (conds : List HandCardCondition) (x : String),
       0 ≤ matchState hand cardCache conds (buildCounts hand) x ∧
       matchState hand cardCache conds (buildCounts hand) x ≤ buildCounts hand x) := by
  constructor
  · intro st item x
    exact ⟨evalGroupItem_snd_le hand cardCache st item x,
      evalGroupItem_snd_nonneg hand cardCache st item x⟩
  · intro conds x
    have h0 : 0 ≤ buildCounts hand x := by
      rw [buildCounts_apply]
      exact_mod_cast Nat.zero_le _
    exact ⟨matchState_nonneg hand cardCache conds x (buildCounts hand) h0,
      matchState_le hand cardCache conds x (buildCounts hand)⟩

/-- Witness for C10 at a concrete input: the literal step on the hand
`["A"]` leaves the remaining count of "A" within its bounds, with the
nonnegativity hypothesis discharged by evaluation. -/
theorem remainingCountsBounds_witness :
    (evalGroupItem ["A"] darkCache (0, buildCounts ["A"]) litA).2 "A"
      ≤ buildCounts ["A"] "A" ∧
    0 ≤ (evalGroupItem ["A"] darkCache (0, buildCounts ["A"]) litA).2 "A" ∧
    0 ≤ matchState ["A"] darkCache [⟨[litA], Op.ge, 1⟩] (buildCounts ["A"]) "A" := by
  refine ⟨((remainingCountsBounds ["A"] darkCache).1 (0, buildCounts ["A"]) litA "A").1,
    ((remainingCountsBounds ["A"] darkCache).1 (0, buildCounts ["A"]) litA "A").2
      (by decide),
    ((remainingCountsBounds ["A"] darkCache).2 [⟨[litA], Op.ge, 1⟩] "A").1⟩

/-- C3: for every deck, every hand size at most the deck's length and every
random source, the sampled hand (Fisher-Yates shuffle of a fresh copy of
the deck, then the first `h` cards) has length exactly `h`, draws only
cards of the deck, and repeats no identifier more often than the deck
holds it. -/
theorem drawHand_spec (deck : List String) (h : Nat) (r : Nat → Nat)
    (hle : h ≤ deck.length) :
    (drawHand deck h r).length = h ∧
    (∀ x ∈ drawHand deck h r, x ∈ deck) ∧
    (∀ x : String, (drawHand deck h r).count x ≤ deck.count x) := by
  refine ⟨?_, ?_, ?_⟩
  · rw [drawHand, List.length_take, fyShuffle_length]
    exact Nat.min_eq_left hle
  · intro x hx
    have hx2 : x ∈ fyShuffle deck r := List.take_subset _ _ hx
    have hpos : 0 < (fyShuffle deck r).count x := List.count_pos_iff.mpr hx2
    rw [fyShuffle_count] at hpos
    exact List.count_pos_iff.mp hpos
  · intro x
    calc (drawHand deck h r).count x
        ≤ (fyShuffle deck r).count x := (List.take_sublist _ _).count_le x
      _ = deck.count x := fyShuffle_count deck r x

/-- Witness for C3 at a concrete input: a hand of 2 from a 3-card deck. -/
theorem drawHand_spec_witness :
    2 ≤ (["A", "B", "C"] : List String).length ∧
    (drawHand ["A", "B", "C"] 2 (fun _ => 0)).length = 2 := by
  exact ⟨by decide, (drawHand_spec ["A", "B", "C"] 2 (fun _ => 0) (by decide)).1⟩

/-- C6: when the deck is smaller than the hand size or some target hand has
zero conditions, the driver aborts with an error before drawing any hand:
the outcome is an error, the previously stored results stay unchanged, and
the outcome does not depend on the random source (no sampling happens). -/
theorem preconditionAbort (deckMain : List String) (handSize : Nat)
    (targets : List (List HandCardCondition)) (numSim : Int)
    (exclusiveMode : Bool) (cardCache : String → Option CardData)
    (rand rand' : Nat → Nat → Nat) (prev : List Nat)
    (hbad : deckMain.length < handSize ∨ ∃ t ∈ targets, t = []) :
    (∃ e, runSimulation deckMain handSize targets numSim exclusiveMode cardCache rand
        = Except.error e) ∧
    resultsAfter prev
      (runSimulation deckMain handSize targets numSim exclusiveMode cardCache rand)
      = prev ∧
    runSimulation deckMain handSize targets numSim exclusiveMode cardCache rand
      = runSimulation deckMain handSize targets numSim exclusiveMode cardCache rand' := by
  have herr : ∀ rr : Nat → Nat → Nat,
      ∃ e, runSimulation deckMain handSize targets numSim exclusiveMode cardCache rr
        = Except.error e := by
    intro rr
    unfold runSimulation
    by_cases hdeck : deckMain.length < handSize
    · rw [if_pos hdeck]
      exact ⟨_, rfl⟩
    · rw [if_neg hdeck]
      rcases hbad with hbad | ⟨t, ht, hte⟩
      · exact absurd hbad hdeck
      · have hany : targets.any (fun t => t.length == 0) = true :=
          List.any_eq_true.mpr ⟨t, ht, by rw [hte]; rfl⟩
        rw [if_pos (by rw [hany, Bool.or_true])]
        exact ⟨_, rfl⟩
  obtain ⟨e, he⟩ := herr rand
  obtain ⟨e', he'⟩ := herr rand'
  refine ⟨⟨e, he⟩, ?_, ?_⟩
  · rw [he]
    rfl
  · rw [he, he']
    unfold runSimulation at he he'
    by_cases hdeck : deckMain.length < handSize
    · rw [if_pos hdeck] at he he'
      rw [← he, ← he']
    · rw [if_neg hdeck] at he he'
      rcases Decidable.em ((targets.length == 0
          || targets.any (fun t => t.length == 0)) = true) with hc | hc
      · rw [if_pos hc] at he he'
        rw [← he, ← he']
      · rw [if_neg hc] at he
        cases he

/-- Witness for C6 at a concrete input: a deck of one card with hand size 2
is rejected and the stored results survive. -/
theorem preconditionAbort_witness :
    (["A"] : List String).length < 2 ∧
    resultsAfter [7]
      (runSimulation ["A"] 2 [[⟨[litA], Op.ge, 1⟩]] 5 false darkCache (fun _ _ => 0))
      = [7] := by
  refine ⟨by decide, ?_⟩
  exact (preconditionAbort ["A"] 2 [[⟨[litA], Op.ge, 1⟩]] 5 false darkCache
    (fun _ _ => 0) (fun _ _ => 0) [7] (Or.inl (by decide))).2.1

/-- C4 counterexample: with trial count 0 the driver does not reject the
request. On a valid deck and target it returns a normal all-zero result
(and that result replaces the previously stored one), whereas the claim
demands an error and no produced result. -/
theorem trialCountNotValidated :
    runSimulation ["A"] 1 [[⟨[litA], Op.ge, 1⟩]] 0 false darkCache (fun _ _ => 0)
      = Except.ok [0] ∧
    resultsAfter [7]
      (runSimulation ["A"] 1 [[⟨[litA], Op.ge, 1⟩]] 0 false darkCache (fun _ _ => 0))
      = [0] := by
  exact ⟨rfl, rfl⟩

/-- C4 amended: the driver never validates the trial count. For a trial
count below 1 (and otherwise valid inputs) the trial loop body never runs:
no hand is sampled (the outcome is independent of the random source) and
the run completes normally with an all-zero hit-count list. -/
theorem trialCountBelowOneRunsZeroTrials (deckMain : List String) (handSize : Nat)
    (targets : List (List HandCardCondition)) (numSim : Int) (exclusiveMode : Bool)
    (cardCache : String → Option CardData) (rand rand' : Nat → Nat → Nat)
    (hn : numSim < 1) (hdeck : handSize ≤ deckMain.length)
    (hne : targets ≠ []) (hte : ∀ t ∈ targets, t ≠ []) :
    runSimulation deckMain handSize targets numSim exclusiveMode cardCache rand
      = Except.ok (List.replicate targets.length 0) ∧
    runSimulation deckMain handSize targets numSim exclusiveMode cardCache rand
      = runSimulation deckMain handSize targets numSim exclusiveMode cardCache rand' := by
  have htoNat : numSim.toNat = 0 := by omega
  have h1 : ¬ deckMain.length < handSize := Nat.not_lt.mpr hdeck
  have hlen : targets.length ≠ 0 := by
    intro h
    exact hne (List.length_eq_zero.mp h)
  have hanyf : targets.any (fun t => t.length == 0) = false := by
    rw [List.any_eq_false]
    intro t ht
    simp only [beq_iff_eq]
    exact fun h => hte t ht (List.length_eq_zero.mp h)
  have h2 : ¬ (targets.length == 0 || targets.any fun t => t.length == 0) = true := by
    simp [hlen, hanyf]
  unfold runSimulation
  simp only [if_neg h1, if_neg h2, htoNat]
  exact ⟨rfl, rfl⟩

/-- Witness for C4's amended statement at a concrete input: trial count 0
on a valid one-card deck yields the all-zero result. -/
theorem trialCountBelowOneRunsZeroTrials_witness :
    (0 : Int) < 1 ∧
    runSimulation ["A"] 1 [[⟨[litA], Op.ge, 1⟩]] 0 false darkCache (fun _ _ => 0)
      = Except.ok (List.replicate 1 0) := by
  refine ⟨by decide, ?_⟩
  exact (trialCountBelowOneRunsZeroTrials ["A"] 1 [[⟨[litA], Op.ge, 1⟩]] 0 false
    darkCache (fun _ _ => 0) (fun _ _ => 0) (by decide) (by decide) (by decide)
    (by intro t ht; simp at ht; subst ht; simp)).1

/-- The exclusive-mode update increments exactly the counter of the first
matching target (in listed order) and leaves everything else unchanged. -/
theorem exclusiveUpdate_eq_findIdx (hand : List String)
    (cardCache : String → Option CardData) :
    ∀ (targets : List (List HandCardCondition)) (counts : List Nat),
      exclusiveUpdate hand cardCache targets counts
        = (match targets.findIdx? (fun t => handMatches hand t cardCache) with
           | some i => counts.set i (counts.getD i 0 + 1)
           | none => counts) := by
  intro targets
  induction targets with
  | nil =>
    intro counts
    rfl
  | cons t ts ih =>
    intro counts
    cases counts with
    | nil =>
      cases hf : (t :: ts).findIdx? (fun t => handMatches hand t cardCache) with
      | none => rfl
      | some i =>
        show ([] : List Nat) = List.set [] i _
        rw [List.set_nil]
    | cons c cs =>
      by_cases hm : handMatches hand t cardCache = true
      · have hf : (t :: ts).findIdx? (fun t => handMatches hand t cardCache)
            = some 0 := by
          rw [List.findIdx?_cons, hm]
          rfl
        rw [hf]
        simp [exclusiveUpdate, hm]
      · have hm' : handMatches hand t cardCache = false := by
          simpa using hm
        have hstep : (t :: ts).findIdx? (fun t => handMatches hand t cardCache)
            = (ts.findIdx? (fun t => handMatches hand t cardCache)).map
                (fun i => i + 1) := by
          rw [List.findIdx?_cons, hm']
          simp [List.findIdx?_succ]
        have hLHS : exclusiveUpdate hand cardCache (t :: ts) (c :: cs)
            = c :: exclusiveUpdate hand cardCache ts cs := by
          show (if handMatches hand t cardCache then (c + 1) :: cs
            else c :: exclusiveUpdate hand cardCache ts cs) = _
          rw [hm']
          rfl
        rw [hLHS, hstep, ih cs]
        cases hf : ts.findIdx? (fun t => handMatches hand t cardCache) with
        | none => rfl
        | some i =>
          show c :: List.set cs i (cs.getD i 0 + 1)
            = List.set (c :: cs) (i + 1) ((c :: cs).getD (i + 1) 0 + 1)
          rw [List.set_cons_succ, List.getD_cons_succ]

/-- One exclusive-mode trial adds at most 1 to the total of the counters. -/
theorem exclusiveUpdate_sum_le (hand : List String)
    (cardCache : String → Option CardData) :
    ∀ (targets : List (List HandCardCondition)) (counts : List Nat),
      (exclusiveUpdate hand cardCache targets counts).sum ≤ counts.sum + 1 := by
  intro targets
  induction targets with
  | nil =>
    intro counts
    exact Nat.le_succ _
  | cons t ts ih =>
    intro counts
    cases counts with
    | nil =>
      show (exclusiveUpdate hand cardCache (t :: ts) []).sum ≤ 1
      show (([] : List Nat)).sum ≤ 1
      simp
    | cons c cs =>
      by_cases hm : handMatches hand t cardCache = true
      · show (if handMatches hand t cardCache then (c + 1) :: cs
          else c :: exclusiveUpdate hand cardCache ts cs).sum ≤ (c :: cs).sum + 1
        rw [hm]
        simp [List.sum_cons]
        omega
      · have hm' : handMatches hand t cardCache = false := by simpa using hm
        show (if handMatches hand t cardCache then (c + 1) :: cs
          else c :: exclusiveUpdate hand cardCache ts cs).sum ≤ (c :: cs).sum + 1
        rw [hm']
        simp only [if_false, Bool.false_eq_true, List.sum_cons]
        have := ih cs
        omega

/-- Over a run of the trial loop in exclusive mode the counter total grows
by at most the number of trials. -/
theorem simTrials_exclusive_sum_le (deckMain : List String) (handSize : Nat)
    (targets : List (List HandCardCondition)) (cardCache : String → Option CardData)
    (rand : Nat → Nat → Nat) :
    ∀ (fuel i : Nat) (counts : List Nat),
      (simTrials deckMain handSize targets cardCache true rand i fuel counts).sum
        ≤ counts.sum + fuel := by
  intro fuel
  induction fuel with
  | zero =>
    intro i counts
    exact Nat.le_refl _
  | succ fuel ih =>
    intro i counts
    have h1 := ih (i + 1)
      (trialUpdate true (drawHand deckMain handSize (rand i)) cardCache targets counts)
    have h2 : (trialUpdate true (drawHand deckMain handSize (rand i)) cardCache targets
        counts).sum ≤ counts.sum + 1 :=
      exclusiveUpdate_sum_le _ cardCache targets counts
    calc (simTrials deckMain handSize targets cardCache true rand i (fuel + 1) counts).sum
        = (simTrials deckMain handSize targets cardCache true rand (i + 1) fuel
            (trialUpdate true (drawHand deckMain handSize (rand i)) cardCache targets
              counts)).sum := rfl
      _ ≤ _ + fuel := h1
      _ ≤ counts.sum + (fuel + 1) := by omega

/-- C5: in exclusive mode each trial updates the counters by incrementing
exactly the counter of the first target (in listed order) matching the
sampled hand, when one exists, and nothing otherwise; hence each trial adds
at most one hit and every hit-count list the driver produces in exclusive
mode has total at most the number of trials. -/
theorem exclusiveFirstMatchOnly (cardCache : String → Option CardData)
    (targets : List (List HandCardCondition)) :
    (∀ (hand : List String) (counts : List Nat),
       exclusiveUpdate hand cardCache targets counts
         = (match targets.findIdx? (fun t => handMatches hand t cardCache) with
            | some i => counts.set i (counts.getD i 0 + 1)
            | none => counts) ∧
       (exclusiveUpdate hand cardCache targets counts).sum ≤ counts.sum + 1) ∧
    (∀ (deckMain : List String) (handSize : Nat) (numSim : Int)
       (rand : Nat → Nat → Nat) (counts : List Nat),
       runSimulation deckMain handSize targets numSim true cardCache rand
         = Except.ok counts → counts.sum ≤ numSim.toNat) := by
  constructor
  · intro hand counts
    exact ⟨exclusiveUpdate_eq_findIdx hand cardCache targets counts,
      exclusiveUpdate_sum_le hand cardCache targets counts⟩
  · intro deckMain handSize numSim rand counts h
    unfold runSimulation at h
    by_cases h1 : deckMain.length < handSize
    · rw [if_pos h1] at h
      cases h
    · rw [if_neg h1] at h
      by_cases h2 : (targets.length == 0 || targets.any fun t => t.length == 0) = true
      · rw [if_pos h2] at h
        cases h
      · rw [if_neg h2] at h
        have hc : simTrials deckMain handSize targets cardCache true rand 0 numSim.toNat
            (List.replicate targets.length 0) = counts := by
          injection h
        have hb := simTrials_exclusive_sum_le deckMain handSize targets cardCache rand
          numSim.toNat 0 (List.replicate targets.length 0)
        have hz : (List.replicate targets.length (0 : Nat)).sum = 0 := by
          simp
        rw [hc, hz] at hb
        omega

/-- Witness for C5 at a concrete input: an exclusive run of 3 trials over a
one-card deck whose single target always matches yields total 3 ≤ 3. -/
theorem exclusiveFirstMatchOnly_witness :
    runSimulation ["A"] 1 [[⟨[litA], Op.ge, 1⟩]] 3 true darkCache (fun _ _ => 0)
      = Except.ok [3] ∧
    ([3] : List Nat).sum ≤ (3 : Int).toNat := by
  refine ⟨rfl, ?_⟩
  exact (exclusiveFirstMatchOnly darkCache [[⟨[litA], Op.ge, 1⟩]]).2 ["A"] 1 3
    (fun _ _ => 0) [3] rfl

/-- A hand matches at least one of the targets. -/
def matchesAnyTarget (targets : List (List HandCardCondition))
    (cardCache : String → Option CardData) (hand : List String) : Bool :=
  targets.any (fun t => handMatches hand t cardCache)

/-- The number of targets a hand matches. -/
def matchCountOf (targets : List (List HandCardCondition))
    (cardCache : String → Option CardData) (hand : List String) : Nat :=
  targets.countP (fun t => handMatches hand t cardCache)

/-- The exclusive-mode update preserves the length of the counter list. -/
theorem exclusiveUpdate_length (hand : List String)
    (cardCache : String → Option CardData) :
    ∀ (targets : List (List HandCardCondition)) (counts : List Nat),
      (exclusiveUpdate hand cardCache targets counts).length = counts.length := by
  intro targets
  induction targets with
  | nil =>
    intro counts
    rfl
  | cons t ts ih =>
    intro counts
    cases counts with
    | nil => rfl
    | cons c cs =>
      show (if handMatches hand t cardCache then (c + 1) :: cs
        else c :: exclusiveUpdate hand cardCache ts cs).length = cs.length + 1
      by_cases hm : handMatches hand t cardCache = true
      · rw [hm]
        simp
      · have hm' : handMatches hand t cardCache = false := by simpa using hm
        rw [hm']
        simp [ih cs]

/-- Exact counter total after one exclusive-mode trial: it grows by 1 when
some target matches the hand and by 0 otherwise. -/
theorem exclusiveUpdate_sum_eq (hand : List String)
    (cardCache : String → Option CardData) :
    ∀ (targets : List (List HandCardCondition)) (counts : List Nat),
      counts.length = targets.length →
      (exclusiveUpdate hand cardCache targets counts).sum
        = counts.sum
          + (if targets.any (fun t => handMatches hand t cardCache) then 1 else 0) := by
  intro targets
  induction targets with
  | nil =>
    intro counts h
    rw [List.length_nil, List.length_eq_zero] at h
    subst h
    rfl
  | cons t ts ih =>
    intro counts h
    cases counts with
    | nil => simp at h
    | cons c cs =>
      have hlen : cs.length = ts.length := by simpa using h
      by_cases hm : handMatches hand t cardCache = true
      · have hany : (t :: ts).any (fun t => handMatches hand t cardCache) = true := by
          rw [List.any_cons, hm, Bool.true_or]
        show (if handMatches hand t cardCache then (c + 1) :: cs
          else c :: exclusiveUpdate hand cardCache ts cs).sum = _
        rw [hm, hany]
        simp [List.sum_cons]
        omega
      · have hm' : handMatches hand t cardCache = false := by simpa using hm
        have hany : (t :: ts).any (fun t => handMatches hand t cardCache)
            = ts.any (fun t => handMatches hand t cardCache) := by
          rw [List.any_cons, hm', Bool.false_or]
        show (if handMatches hand t cardCache then (c + 1) :: cs
          else c :: exclusiveUpdate hand cardCache ts cs).sum = _
        rw [hm', hany]
        simp only [Bool.false_eq_true, if_false, List.sum_cons]
        rw [ih cs hlen]
        omega

/-- The inclusive-mode update preserves the length of the counter list. -/
theorem inclusiveUpdate_length (hand : List String)
    (cardCache : String → Option CardData)
    (targets : List (List HandCardCondition)) (counts : List Nat)
    (h : counts.length = targets.length) :
    (inclusiveUpdate hand cardCache targets counts).length = counts.length := by
  unfold inclusiveUpdate
  rw [List.length_zipWith, h, Nat.min_self]

/-- Exact counter total after one inclusive-mode trial: it grows by the
number of targets the hand matches. -/
theorem inclusiveUpdate_sum_eq (hand : List String)
    (cardCache : String → Option CardData) :
    ∀ (targets : List (List HandCardCondition)) (counts : List Nat),
      counts.length = targets.length →
      (inclusiveUpdate hand cardCache targets counts).sum
        = counts.sum + targets.countP (fun t => handMatches hand t cardCache) := by
  intro targets
  induction targets with
  | nil =>
    intro counts h
    rw [List.length_nil, List.length_eq_zero] at h
    subst h
    rfl
  | cons t ts ih =>
    intro counts h
    cases counts with
    | nil => simp at h
    | cons c cs =>
      have hlen : cs.length = ts.length := by simpa using h
      unfold inclusiveUpdate
      rw [List.zipWith_cons_cons, List.sum_cons, List.countP_cons]
      have ihc := ih cs hlen
      unfold inclusiveUpdate at ihc
      rw [ihc, List.sum_cons]
      by_cases hm : handMatches hand t cardCache = true
      · rw [if_pos hm, hm]
        simp
        omega
      · have hm' : handMatches hand t cardCache = false := by simpa using hm
        rw [if_neg hm, hm']
        simp
        omega

/-- Total of the exclusive-mode counters over a batch of hands, from any
counter list of the right length. -/
theorem foldl_exclusive_sum (targets : List (List HandCardCondition))
    (cardCache : String → Option CardData) :
    ∀ (hands : List (List String)) (counts : List Nat),
      counts.length = targets.length →
      (hands.foldl (fun c h => exclusiveUpdate h cardCache targets c) counts).sum
        = counts.sum + hands.countP (matchesAnyTarget targets cardCache) := by
  intro hands
  induction hands with
  | nil =>
    intro counts h
    simp
  | cons hd tl ih =>
    intro counts h
    rw [List.foldl_cons,
      ih _ (by rw [exclusiveUpdate_length]; exact h),
      exclusiveUpdate_sum_eq hd cardCache targets counts h,
      List.countP_cons]
    unfold matchesAnyTarget
    omega

/-- Total of the inclusive-mode counters over a batch of hands, from any
counter list of the right length. -/
theorem foldl_inclusive_sum (targets : List (List HandCardCondition))
    (cardCache : String → Option CardData) :
    ∀ (hands : List (List String)) (counts : List Nat),
      counts.length = targets.length →
      (hands.foldl (fun c h => inclusiveUpdate h cardCache targets c) counts).sum
        = counts.sum + (hands.map (matchCountOf targets cardCache)).sum := by
  intro hands
  induction hands with
  | nil =>
    intro counts h
    simp
  | cons hd tl ih =>
    intro counts h
    rw [List.foldl_cons,
      ih _ (by rw [inclusiveUpdate_length hd cardCache targets counts h]; exact h),
      inclusiveUpdate_sum_eq hd cardCache targets counts h,
      List.map_cons, List.sum_cons]
    unfold matchCountOf
    omega

/-- The exclusive-mode batch total counts the hands matching at least one
target. -/
theorem runExclusive_sum (targets : List (List HandCardCondition))
    (cardCache : String → Option CardData) (hands : List (List String)) :
    (runExclusive targets cardCache hands).sum
      = hands.countP (matchesAnyTarget targets cardCache) := by
  unfold runExclusive
  rw [foldl_exclusive_sum targets cardCache hands _ (List.length_replicate _ _)]
  simp

/-- The inclusive-mode batch total adds up, over the hands, the number of
targets each hand matches. -/
theorem runInclusive_sum (targets : List (List HandCardCondition))
    (cardCache : String → Option CardData) (hands : List (List String)) :
    (runInclusive targets cardCache hands).sum
      = (hands.map (matchCountOf targets cardCache)).sum := by
  unfold runInclusive
  rw [foldl_inclusive_sum targets cardCache hands _ (List.length_replicate _ _)]
  simp

/-- Counting hands with at least one match is bounded by summing the match
counts, with equality exactly when no hand matches more than one target. -/
theorem countP_any_le_sum (targets : List (List HandCardCondition))
    (cardCache : String → Option CardData) :
    ∀ hands : List (List String),
      hands.countP (matchesAnyTarget targets cardCache)
        ≤ (hands.map (matchCountOf targets cardCache)).sum ∧
      (hands.countP (matchesAnyTarget targets cardCache)
          = (hands.map (matchCountOf targets cardCache)).sum
        ↔ ∀ hand ∈ hands, matchCountOf targets cardCache hand ≤ 1) := by
  intro hands
  induction hands with
  | nil => simp
  | cons h hs ih =>
    obtain ⟨ih1, ih2⟩ := ih
    have hab : (if matchesAnyTarget targets cardCache h then 1 else 0)
          ≤ matchCountOf targets cardCache h ∧
        ((if matchesAnyTarget targets cardCache h then 1 else 0)
            = matchCountOf targets cardCache h
          ↔ matchCountOf targets cardCache h ≤ 1) := by
      by_cases hp : matchesAnyTarget targets cardCache h = true
      · have hpos : 0 < matchCountOf targets cardCache h := by
          unfold matchCountOf
          exact List.countP_pos_iff.mpr
            (List.any_eq_true.mp (by unfold matchesAnyTarget at hp; exact hp))
        rw [if_pos hp]
        omega
      · have hz : matchCountOf targets cardCache h = 0 := by
          unfold matchCountOf
          rw [List.countP_eq_zero]
          intro t ht hmt
          exact hp (by unfold matchesAnyTarget; exact List.any_eq_true.mpr ⟨t, ht, hmt⟩)
        rw [if_neg hp, hz]
        omega
    rw [List.countP_cons, List.map_cons, List.sum_cons, List.forall_mem_cons]
    obtain ⟨hab1, hab2⟩ := hab
    constructor
    · omega
    · constructor
      · intro he
        have h1 : (if matchesAnyTarget targets cardCache h then 1 else 0)
            = matchCountOf targets cardCache h := by omega
        have h2 : hs.countP (matchesAnyTarget targets cardCache)
            = (hs.map (matchCountOf targets cardCache)).sum := by omega
        exact ⟨hab2.mp h1, ih2.mp h2⟩
      · intro hc
        have h1 := hab2.mpr hc.1
        have h2 := ih2.mpr hc.2
        omega

/-- C7: for the same sequence of sampled hands and targets, the exclusive
total never exceeds the inclusive total, with equality exactly when no hand
of the sequence matches more than one target. -/
theorem exclusiveLeInclusive (targets : List (List HandCardCondition))
    (cardCache : String → Option CardData) (hands : List (List String)) :
    (runExclusive targets cardCache hands).sum
      ≤ (runInclusive targets cardCache hands).sum ∧
    ((runExclusive targets cardCache hands).sum
        = (runInclusive targets cardCache hands).sum
      ↔ ∀ hand ∈ hands, matchCountOf targets cardCache hand ≤ 1) := by
  rw [runExclusive_sum, runInclusive_sum]
  exact countP_any_le_sum targets cardCache hands

/-- Witness for C7 at a concrete input: one single-card target over the
hands `["A"]` and `["B"]`; no hand can match two targets, so the two modes
agree. -/
theorem exclusiveLeInclusive_witness :
    (runExclusive [[⟨[litA], Op.ge, 1⟩]] darkCache [["A"], ["B"]]).sum
      ≤ (runInclusive [[⟨[litA], Op.ge, 1⟩]] darkCache [["A"], ["B"]]).sum ∧
    (runExclusive [[⟨[litA], Op.ge, 1⟩]] darkCache [["A"], ["B"]]).sum
      = (runInclusive [[⟨[litA], Op.ge, 1⟩]] darkCache [["A"], ["B"]]).sum := by
  refine ⟨(exclusiveLeInclusive [[⟨[litA], Op.ge, 1⟩]] darkCache [["A"], ["B"]]).1, ?_⟩
  exact (exclusiveLeInclusive [[⟨[litA], Op.ge, 1⟩]] darkCache [["A"], ["B"]]).2.mpr
    (by decide)

/-- The trial loop is the fold of the per-trial update over the sequence of
drawn hands. -/
theorem simTrials_eq_foldl (deckMain : List String) (handSize : Nat)
    (targets : List (List HandCardCondition)) (cardCache : String → Option CardData)
    (exclusiveMode : Bool) (rand : Nat → Nat → Nat) :
    ∀ (fuel i : Nat) (counts : List Nat),
      simTrials deckMain handSize targets cardCache exclusiveMode rand i fuel counts
        = (trialHands deckMain handSize rand i fuel).foldl
            (fun c h => trialUpdate exclusiveMode h cardCache targets c) counts := by
  intro fuel
  induction fuel with
  | zero =>
    intro i counts
    rfl
  | succ fuel ih =>
    intro i counts
    exact ih (i + 1) _

/-- The driver's counters are exactly the batch counters of the drawn
hands, in either mode. -/
theorem simTrials_eq_runModes (deckMain : List String) (handSize : Nat)
    (targets : List (List HandCardCondition)) (cardCache : String → Option CardData)
    (rand : Nat → Nat → Nat) (fuel : Nat) :
    simTrials deckMain handSize targets cardCache true rand 0 fuel
        (List.replicate targets.length 0)
      = runExclusive targets cardCache (trialHands deckMain handSize rand 0 fuel) ∧
    simTrials deckMain handSize targets cardCache false rand 0 fuel
        (List.replicate targets.length 0)
      = runInclusive targets cardCache (trialHands deckMain handSize rand 0 fuel) := by
  constructor
  · rw [simTrials_eq_foldl]
    rfl
  · rw [simTrials_eq_foldl]
    rfl
